import Mathlib

/-!
Verification of the chessvine-be bulk-analysis pipeline.

This file shallowly embeds the core of the repository:
* `determinePlayerColor` (src/modules/analysis/services/analysis.service.ts),
* `splitPgn` / `parseHeaders` (the PGN parser service),
* `processBulkAnalysis` / `getAnalysesStatus` (analysis.service.ts),
* `processAnalysis` (src/modules/analysis/services/worker.service.ts),
and proves the spec's testable properties about them.

Strings are modelled as `List Char` (`Str`).  JavaScript's whitespace
class (`\s`, and the set used by `String.prototype.trim`) is modelled by
its ASCII part `isWs`; `String.prototype.toLowerCase` is modelled by the
ASCII mapping `lowerChar`.  All definitions are executable.
-/

namespace Chessvine

abbrev Str := List Char

/-- ASCII part of JavaScript's whitespace class `\s`
(space, tab, newline, carriage return, vertical tab, form feed). -/
def isWs (c : Char) : Bool :=
  c = ' ' || c = '\t' || c = '\n' || c = '\r' || c = '\x0b' || c = '\x0c'

/-- ASCII part of JavaScript's `String.prototype.toLowerCase`. -/
def lowerChar (c : Char) : Char :=
  if 65 ≤ c.toNat ∧ c.toNat ≤ 90 then Char.ofNat (c.toNat + 32) else c

/-- `s.toLowerCase()` (ASCII). -/
def jsToLower (s : Str) : Str := s.map lowerChar

/-- `s.trim()`: strip leading and trailing whitespace. -/
def jsTrim (s : Str) : Str :=
  ((s.dropWhile isWs).reverse.dropWhile isWs).reverse

/-- `s.includes(sub)`: substring containment. -/
def jsIncludes (s sub : Str) : Bool := decide (sub <:+: s)

/-- The status enum of the analysis job record
(`AnalysisStatus` in src/modules/analysis/types). -/
inductive AnalysisStatus where
  | PENDING
  | PROCESSING
  | COMPLETED
  | FAILED
  deriving DecidableEq, Repr

/-- `PlayerColor` from src/modules/analysis/types. -/
inductive PlayerColor where
  | white
  | black
  deriving DecidableEq, Repr

/-- `AnalysisMetadata` from src/modules/analysis/types: header fields
extracted from one game.  Optional TS fields become `Option`. -/
structure AnalysisMetadata where
  white : Str
  black : Str
  result : Str
  event : Option Str
  date : Option Str
  eco : Option Str
  opening : Option Str
  deriving DecidableEq, Repr

/-- `determinePlayerColor` from analysis.service.ts: normalize the
player name and both participant names (lowercase, then trim) and test
bidirectional containment, white side first. -/
def determinePlayerColor (metadata : AnalysisMetadata) (playerName : Str) :
    Option PlayerColor :=
  let normalizedName := jsTrim (jsToLower playerName)
  let white := jsTrim (jsToLower metadata.white)
  let black := jsTrim (jsToLower metadata.black)
  if jsIncludes white normalizedName || jsIncludes normalizedName white then
    some .white
  else if jsIncludes black normalizedName || jsIncludes normalizedName black then
    some .black
  else
    none

/-- Modelled from the spec's words (§4.2), for comparison with
`determinePlayerColor`: "the subject name is a match if it contains, or
is contained by, either participant's name after normalization"
(case-insensitive, whitespace-trimmed). -/
def subjectMatches (participant subject : Str) : Bool :=
  let p := jsTrim (jsToLower participant)
  let s := jsTrim (jsToLower subject)
  jsIncludes p s || jsIncludes s p

/-- Modelled from the spec's words (§4.2), for comparison with
`determinePlayerColor`: check the white side first, then the black
side, else no match. -/
def resolverSpec (white black subject : Str) : Option PlayerColor :=
  if subjectMatches white subject then some .white
  else if subjectMatches black subject then some .black
  else none

/-! ## PGN parser (pgn-parser.service.ts)

`splitPgn` splits on the JavaScript regex `/\n\s*\n(?=\[)/`.  A match of
that regex at a position is: a literal newline, a greedy run of
whitespace, a newline, with a lookahead requiring `[` next.  The
backtracking semantics of `\s*\n(?=\[)` is captured by `matchStarNl`:
prefer consuming a whitespace character into `\s*`, and on failure of
the rest of the pattern retry that character as the final `\n` (whose
following character must be `[`). -/

/-- Number of characters consumed by `\s*\n(?=\[)` at the head of the
input (greedy, with backtracking), if it matches. -/
def matchStarNl : Str → Option Nat
  | [] => none
  | c :: cs =>
    if isWs c then
      match matchStarNl cs with
      | some n => some (n + 1)
      | none => if c = '\n' && cs.head? == some '[' then some 1 else none
    else none

/-- Number of characters consumed by a match of `/\n\s*\n(?=\[)/`
starting at the head of the input, if any. -/
def sepMatchLen (l : Str) : Option Nat :=
  match l with
  | c :: cs => if c = '\n' then (matchStarNl cs).map (· + 1) else none
  | [] => none

/-- `content.split(/\n\s*\n(?=\[)/)`: scan left to right, cutting at
every leftmost separator match.  `acc` is the current fragment,
reversed. -/
def splitAux (l : Str) (acc : Str) : List Str :=
  match hsep : sepMatchLen l with
  | some n => acc.reverse :: splitAux (l.drop n) []
  | none =>
    match l with
    | [] => [acc.reverse]
    | c :: cs => splitAux cs (c :: acc)
termination_by l.length
decreasing_by
  · have hpos : 0 < n ∧ l ≠ [] := by
      cases l with
      | nil => simp [sepMatchLen] at hsep
      | cons c cs =>
        refine ⟨?_, by simp⟩
        simp only [sepMatchLen] at hsep
        split at hsep
        · cases hm : matchStarNl cs with
          | none => rw [hm] at hsep; simp at hsep
          | some m => rw [hm] at hsep; simp at hsep; omega
        · simp at hsep
    have : l.length ≠ 0 := by
      intro h0
      exact hpos.2 (List.length_eq_zero.mp h0)
    simp [List.length_drop]
    omega
  · simp

def jsSplit (l : Str) : List Str := splitAux l []

/-! ### Header extraction (`parseHeaders`)

`getHeader(name)` matches the regex `` \[name\s+"([^"]*)"\] `` with the
case-insensitive flag and returns the first capture group. -/

/-- Match the tag name case-insensitively at the head of the input,
returning the rest. -/
def eatNameCI : Str → Str → Option Str
  | [], l => some l
  | _ :: _, [] => none
  | c :: cs, x :: xs =>
    if lowerChar c = lowerChar x then eatNameCI cs xs else none

/-- Consume `([^"]*)"`: everything up to the first double quote, which
is also consumed.  Fails when no closing quote exists. -/
def takeValue : Str → Option (Str × Str)
  | [] => none
  | c :: cs =>
    if c = '"' then some ([], cs)
    else (takeValue cs).map (fun p => (c :: p.1, p.2))

/-- Match `` \[name\s+"([^"]*)"\] `` (case-insensitive in the tag name)
at the head of the input, returning the capture group. -/
def matchHeaderHere (name : Str) (l : Str) : Option Str :=
  match l with
  | b :: l1 =>
    if b = '[' then
      match eatNameCI name l1 with
      | some (c :: cs) =>
        if isWs c then
          match cs.dropWhile isWs with
          | '"' :: l3 =>
            match takeValue l3 with
            | some (v, ']' :: _) => some v
            | _ => none
          | _ => none
        else none
      | _ => none
    else none
  | [] => none

/-- Leftmost match of the header pattern anywhere in the input. -/
def matchHeaderFrom (name : Str) : Str → Option Str
  | [] => none
  | c :: cs =>
    match matchHeaderHere name (c :: cs) with
    | some v => some v
    | none => matchHeaderFrom name cs

/-- `getHeader` from `parseHeaders`: first match of the
case-insensitive tag-and-quoted-value pattern, or `none`. -/
def getHeader (name : Str) (pgn : Str) : Option Str :=
  matchHeaderFrom name pgn

/-- JavaScript `x || dflt` on an optional string: the default is used
when the value is missing or empty (empty strings are falsy). -/
def jsOrStr (v : Option Str) (dflt : Str) : Str :=
  match v with
  | some s => if s.isEmpty then dflt else s
  | none => dflt

/-- `parseHeaders` from pgn-parser.service.ts. -/
def parseHeaders (pgn : Str) : AnalysisMetadata :=
  { white := jsOrStr (getHeader "White".data pgn) "Unknown".data
    black := jsOrStr (getHeader "Black".data pgn) "Unknown".data
    result := jsOrStr (getHeader "Result".data pgn) "*".data
    event := getHeader "Event".data pgn
    date := getHeader "Date".data pgn
    eco := getHeader "ECO".data pgn
    opening := getHeader "Opening".data pgn }

/-- `ParsedGame` from pgn-parser.service.ts. -/
structure ParsedGame where
  pgn : Str
  metadata : AnalysisMetadata
  deriving DecidableEq, Repr

/-- The `for` loop of `splitPgn`: trim each fragment, skip empty ones,
attach parsed headers. -/
def splitPgnGames : List Str → List ParsedGame
  | [] => []
  | g :: gs =>
    if (jsTrim g).length = 0 then splitPgnGames gs
    else ⟨jsTrim g, parseHeaders (jsTrim g)⟩ :: splitPgnGames gs

/-- `splitPgn` from pgn-parser.service.ts: trim the whole content,
split at separator matches, drop fragments that trim to nothing, parse
the headers of each remaining fragment. -/
def splitPgn (content : Str) : List ParsedGame :=
  splitPgnGames ((jsSplit (jsTrim content)).filter (fun g => (jsTrim g).length > 0))

/-! ## Job record model (analysis.model.ts, types.ts) -/

/-- One phase entry of `AnalysisResult`. -/
structure Phase where
  name : Str
  moves : Str
  evaluation : Str
  key_ideas : List Str
  deriving DecidableEq, Repr

/-- One key-moment entry of `AnalysisResult`. -/
structure KeyMoment where
  move_number : Int
  move : Str
  fen : Str
  evaluation : Str
  comment : Str
  is_mistake : Bool
  deriving DecidableEq, Repr

/-- `AnalysisResult` from src/modules/analysis/types. -/
structure AnalysisResult where
  summary : Str
  phases : List Phase
  key_moments : List KeyMoment
  recommendations : List Str
  deriving DecidableEq, Repr

/-- The persisted analysis job record (`IAnalysis`).  Timestamps other
than `completed_at` are omitted: no claim depends on them. -/
structure AnalysisRecord where
  analysis_id : Str
  user_id : Str
  batch_id : Option Str
  status : AnalysisStatus
  pgn : Str
  gcs_url : Option Str
  player_name : Str
  player_color : Option PlayerColor
  metadata : AnalysisMetadata
  result : Option AnalysisResult
  error : Option Str
  completed_at : Option Nat
  deriving DecidableEq, Repr

/-- `Analysis.findOne({ analysis_id })`: first record with the given
client-facing identifier. -/
def findOne (db : List AnalysisRecord) (analysisId : Str) :
    Option AnalysisRecord :=
  db.find? (fun a => a.analysis_id == analysisId)

/-- `document.save()`: write the updated document back, replacing the
record `findOne` located (the first one with this identifier). -/
def saveRecord : List AnalysisRecord → Str → AnalysisRecord →
    List AnalysisRecord
  | [], _, _ => []
  | a :: rest, analysisId, v =>
    if a.analysis_id == analysisId then v :: rest
    else a :: saveRecord rest analysisId v

/-! ## Worker (worker.service.ts) -/

/-- The game-information object the worker passes to
`geminiService.analyzeGame` (optional metadata fields defaulted to the
empty string with `||`). -/
structure GameContext where
  white : Str
  black : Str
  result : Str
  event : Str
  date : Str
  deriving DecidableEq, Repr

def mkGameContext (m : AnalysisMetadata) : GameContext :=
  { white := m.white
    black := m.black
    result := m.result
    event := jsOrStr m.event []
    date := jsOrStr m.date [] }

/-- A thrown JavaScript value, as the worker's `catch` sees it:
`some msg` when it is an `Error` carrying `msg` as its message, `none`
for a non-`Error` throw. -/
abbrev JsThrown := Option Str

/-- `error instanceof Error ? error.message : "Unknown error"`. -/
def thrownMessage (e : JsThrown) : Str := e.getD "Unknown error".data

/-- The external model call (`geminiService.analyzeGame`): arguments as
the worker supplies them; returns a structured result or throws. -/
abbrev ModelFn :=
  Str → GameContext → Str → Option PlayerColor → Except JsThrown AnalysisResult

/-- `processAnalysis` from worker.service.ts, as the list of database
states after each persisted write (the head is the initial state, the
last the final state).  Not-found and non-`PENDING` jobs cause an early
return with no write; otherwise the job is saved as `PROCESSING`, the
model is invoked, and the final save is either the `COMPLETED` record
with its result and completion time or — when the model throws — the
`FAILED` record with the stored failure reason.  The `catch` swallows
the thrown value, so the function always returns normally. -/
def processAnalysisTrace (db : List AnalysisRecord) (analysisId : Str)
    (model : ModelFn) (now : Nat) : List (List AnalysisRecord) :=
  match findOne db analysisId with
  | none => [db]
  | some analysis =>
    if analysis.status ≠ AnalysisStatus.PENDING then [db]
    else
      match model analysis.pgn (mkGameContext analysis.metadata)
          analysis.player_name analysis.player_color with
      | .ok res =>
        [db,
         saveRecord db analysisId
           { analysis with status := AnalysisStatus.PROCESSING },
         saveRecord
           (saveRecord db analysisId
             { analysis with status := AnalysisStatus.PROCESSING })
           analysisId
           { analysis with
             status := AnalysisStatus.COMPLETED
             result := some res
             completed_at := some now }]
      | .error e =>
        [db,
         saveRecord db analysisId
           { analysis with status := AnalysisStatus.PROCESSING },
         saveRecord
           (saveRecord db analysisId
             { analysis with status := AnalysisStatus.PROCESSING })
           analysisId
           { analysis with
             status := AnalysisStatus.FAILED
             error := some (thrownMessage e) }]

/-- The database state after one worker invocation. -/
def processAnalysis (db : List AnalysisRecord) (analysisId : Str)
    (model : ModelFn) (now : Nat) : List AnalysisRecord :=
  (processAnalysisTrace db analysisId model now).getLastD db

/-! ## Bulk submission orchestrator (analysis.service.ts) -/

/-- One entry of `skippedGames`. -/
structure SkippedGame where
  white : Str
  black : Str
  reason : Str
  deriving DecidableEq, Repr

/-- `Player "${playerName}" not found in this game`. -/
def skipReason (playerName : Str) : Str :=
  "Player \"".data ++ playerName ++ "\" not found in this game".data

/-- The document `Analysis.create` inserts for one resolvable game:
`PENDING`, no result, no error. -/
def mkAnalysisRecord (analysisId userId batchId url playerName : Str)
    (color : PlayerColor) (g : ParsedGame) : AnalysisRecord :=
  { analysis_id := analysisId
    user_id := userId
    batch_id := some batchId
    status := AnalysisStatus.PENDING
    pgn := g.pgn
    gcs_url := some url
    player_name := playerName
    player_color := some color
    metadata := g.metadata
    result := none
    error := none
    completed_at := none }

/-- The mutable state of one `processBulkAnalysis` call: how many job
identifiers have been drawn, the created records (committed database
writes), the returned identifiers, and the skip entries. -/
structure BulkState where
  ctr : Nat
  recs : List AnalysisRecord
  ids : List Str
  skips : List SkippedGame
  deriving Repr

/-- The inner `for (const game of games)` loop: resolve the player's
side; on no match append a skip entry; otherwise create the job record
and enqueue it.  A dispatch (`enqueue`) failure aborts the loop after
the record is created but before its identifier is returned. -/
def processGames (enq : Str → Bool) (idGen : Nat → Str)
    (userId playerName batchId url : Str) :
    List ParsedGame → BulkState → BulkState × Bool
  | [], st => (st, true)
  | g :: gs, st =>
    match determinePlayerColor g.metadata playerName with
    | none =>
      processGames enq idGen userId playerName batchId url gs
        { st with skips := st.skips ++
            [⟨g.metadata.white, g.metadata.black, skipReason playerName⟩] }
    | some color =>
      let analysisId := idGen st.ctr
      let created := mkAnalysisRecord analysisId userId batchId url playerName
        color g
      if enq analysisId then
        processGames enq idGen userId playerName batchId url gs
          { ctr := st.ctr + 1
            recs := st.recs ++ [created]
            ids := st.ids ++ [analysisId]
            skips := st.skips }
      else
        ({ st with ctr := st.ctr + 1, recs := st.recs ++ [created] }, false)

/-- The outer `for (const url of urls)` loop: download each file
(`none` models a retrieval failure, which — rethrown by the per-URL
`catch` — aborts the whole call), split it into games, and process
them. -/
def processUrls (download : Str → Option Str) (enq : Str → Bool)
    (idGen : Nat → Str) (userId playerName batchId : Str) :
    List Str → BulkState → BulkState × Bool
  | [], st => (st, true)
  | url :: rest, st =>
    match download url with
    | none => (st, false)
    | some content =>
      match processGames enq idGen userId playerName batchId url
          (splitPgn content) st with
      | (st1, true) =>
        processUrls download enq idGen userId playerName batchId rest st1
      | (st1, false) => (st1, false)

/-- `BulkAnalysisResponse` from src/modules/analysis/types. -/
structure BulkAnalysisResponse where
  batch_id : Str
  analysis_ids : List Str
  total_games : Nat
  skipped_games : Option (List SkippedGame)
  deriving DecidableEq, Repr

/-- `processBulkAnalysis` from analysis.service.ts: returns the
response (or `none` when an error propagated out of the call) together
with the job records committed to the database — committed records
survive an abort, there is no rollback. -/
def processBulkAnalysis (download : Str → Option Str) (enq : Str → Bool)
    (idGen : Nat → Str) (urls : List Str) (userId playerName batchId : Str) :
    Option BulkAnalysisResponse × List AnalysisRecord :=
  match processUrls download enq idGen userId playerName batchId urls
      ⟨0, [], [], []⟩ with
  | (st, true) =>
    (some { batch_id := batchId
            analysis_ids := st.ids
            total_games := st.ids.length
            skipped_games := if st.skips.length > 0 then some st.skips else none },
     st.recs)
  | (st, false) => (none, st.recs)

/-! ## Multi-status query (analysis.service.ts) -/

/-- `getAnalysesStatus`: `Analysis.find({ analysis_id: { $in: ids },
user_id })`, then one `{ status }` entry per found document keyed by
its identifier.  The per-identifier value carries only the status
field. -/
def getAnalysesStatus (db : List AnalysisRecord) (ids : List Str)
    (userId : Str) : List (Str × AnalysisStatus) :=
  (db.filter (fun a => ids.contains a.analysis_id && a.user_id == userId)).map
    (fun a => (a.analysis_id, a.status))

/-! ## Reachable database states (for the record invariant)

The spec's data-model invariant quantifies over "any sequence of
orchestrator-creation and worker invocations"; `Reachable` is that
sequence, starting from an empty store.  Worker invocations expose
every intermediate persisted state of the trace. -/

inductive Reachable : List AnalysisRecord → Prop
  | init : Reachable []
  | create (db : List AnalysisRecord)
      (analysisId userId batchId url playerName : Str) (color : PlayerColor)
      (g : ParsedGame) : Reachable db →
      Reachable (db ++ [mkAnalysisRecord analysisId userId batchId url
        playerName color g])
  | work (db s : List AnalysisRecord) (analysisId : Str) (model : ModelFn)
      (now : Nat) : Reachable db →
      s ∈ processAnalysisTrace db analysisId model now → Reachable s

/-- The invariant of claim C5: a result implies `COMPLETED`, a failure
reason implies `FAILED`, and the two are never simultaneously
present. -/
def recordInvariant (a : AnalysisRecord) : Prop :=
  (a.result ≠ none → a.status = AnalysisStatus.COMPLETED) ∧
  (a.error ≠ none → a.status = AnalysisStatus.FAILED) ∧
  ¬(a.result ≠ none ∧ a.error ≠ none)

/-! ## Auxiliary notions used by the theorem statements -/

/-- Position of a status along the forward-only state machine
`pending → processing → {completed | failed}`. -/
def statusRank : AnalysisStatus → Nat
  | .PENDING => 0
  | .PROCESSING => 1
  | .COMPLETED => 2
  | .FAILED => 2

/-- Record-wise status monotonicity between two database states:
no record's status moves backwards. -/
def dbMono (d d1 : List AnalysisRecord) : Prop :=
  ∀ (i : Nat) (a b : AnalysisRecord), d[i]? = some a → d1[i]? = some b →
    statusRank a.status ≤ statusRank b.status

/-- Sum of the games parsed from every downloaded file. -/
def totalParsedGames (download : Str → Option Str) (urls : List Str) : Nat :=
  (urls.map (fun u => (splitPgn ((download u).getD [])).length)).sum

/-- A model call that succeeds with a fixed result (for witnesses). -/
def constModelOk : ModelFn :=
  fun _ _ _ _ => .ok ⟨"ok".data, [], [], []⟩

/-- A model call that throws (for witnesses). -/
def constModelThrow (e : JsThrown) : ModelFn :=
  fun _ _ _ _ => .error e

/-- Concrete metadata, game and records used by witnesses. -/
def sampleMeta : AnalysisMetadata :=
  ⟨"Ann".data, "Bob".data, "1-0".data, none, none, none, none⟩

def sampleGame : ParsedGame :=
  ⟨"[White \"Ann\"]\n1. e4".data, sampleMeta⟩

def samplePendingRec : AnalysisRecord :=
  mkAnalysisRecord "a1".data "u1".data "b1".data "gs://x".data "Ann".data
    PlayerColor.white sampleGame

def sampleCompletedRec : AnalysisRecord :=
  { samplePendingRec with
    status := AnalysisStatus.COMPLETED
    result := some ⟨"ok".data, [], [], []⟩
    completed_at := some 5 }

/-- A concrete object store for witnesses: `f1` holds two games that
both feature "Ann", `f2` one game that does not; every other reference
is missing. -/
def sampleDownload : Str → Option Str := fun u =>
  if u = "f1".data then
    some ("[White \"Ann\"]\n[Black \"Bob\"]\n1. e4 e5\n\n" ++
      "[White \"Cara\"]\n[Black \"Ann\"]\n1. d4 d5").data
  else if u = "f2".data then
    some "[White \"Xen\"]\n[Black \"Yara\"]\n1. c4 c5".data
  else none

/-! ## Well-formed multi-game texts (for claim C6)

The spec's splitting property quantifies over "well-formed multi-game
text with N header blocks separated by blank-line-then-header
boundaries".  A well-formed game record starts with `[` (the start of
its header block), ends in a non-whitespace character (it is trimmed),
and contains no internal separator match; a boundary is a blank-line
separator: a newline, optional whitespace, and a final newline, with
the next record's `[` right after it. -/

/-- Does any suffix of the text carry a separator match? -/
def hasSepB : Str → Bool
  | [] => false
  | c :: cs => (sepMatchLen (c :: cs)).isSome || hasSepB cs

/-- A well-formed individual game record, as the spec's splitting
property requires: non-empty, headed by `[`, trimmed (its last
character is not whitespace), and free of internal separator
matches. -/
abbrev wfGame (g : Str) : Prop :=
  g ≠ [] ∧ g.head? = some '[' ∧ isWs (g.getLastD '[') = false ∧
    hasSepB g = false

/-- A blank-line boundary: a newline, whitespace, and a newline (the
following record's header bracket comes right after it). -/
def wfSep (s : Str) : Prop :=
  ∃ w : Str, (∀ c ∈ w, isWs c = true) ∧ s = '\n' :: w ++ ['\n']

/-- A multi-game text assembled from a first record and a list of
(separator, record) continuations. -/
def joinPgn : Str → List (Str × Str) → Str
  | g, [] => g
  | g, (s, g2) :: rest => g ++ s ++ joinPgn g2 rest

/-- Concrete well-formed games and separator for the C6 witness. -/
def wGame1 : Str := "[White \"Ann\"]\n1. e4 e5".data

def wGame2 : Str := "[White \"Bob\"]\n1. d4 d5".data

def wSep : Str := "\n\n".data

/-! # Theorems -/

/-! ## Claim C2: the subject resolver -/

/-- C2: for every pair of participant names and every subject name,
`determinePlayerColor` lowercases and trims all three strings and
implements exactly the spec's resolver: white wins under bidirectional
containment, then black, else no match (`none`); when both sides would
match, white is returned (white is checked first, so a white match
decides the call, whatever the black side looks like).  Being a total
function into `Option PlayerColor`, the resolver never throws. -/
theorem determinePlayerColor_eq_resolverSpec
    (metadata : AnalysisMetadata) (name : Str) :
    determinePlayerColor metadata name =
      resolverSpec metadata.white metadata.black name ∧
    (subjectMatches metadata.white name = true →
      determinePlayerColor metadata name = some PlayerColor.white) := by
  constructor
  · rfl
  · intro h
    simp only [subjectMatches] at h
    simp [determinePlayerColor, h]

/-- Witness for C2, exercising the tie-break: both participants are a
case-variant of the subject name, and white wins. -/
theorem determinePlayerColor_eq_resolverSpec_witness :
    determinePlayerColor
      ⟨"ANN".data, "ann smith".data, "1-0".data, none, none, none, none⟩
      " Ann ".data = some PlayerColor.white :=
  (determinePlayerColor_eq_resolverSpec
    ⟨"ANN".data, "ann smith".data, "1-0".data, none, none, none, none⟩
    " Ann ".data).2 (by decide)

/-! ## Worker helper lemmas -/

theorem findOne_cons_pos {c : AnalysisRecord} {analysisId : Str}
    (rest : List AnalysisRecord) (hc : (c.analysis_id == analysisId) = true) :
    findOne (c :: rest) analysisId = some c := by
  rw [findOne]
  exact List.find?_cons_of_pos (p := fun r => r.analysis_id == analysisId)
    rest hc

theorem findOne_cons_neg {c : AnalysisRecord} {analysisId : Str}
    (rest : List AnalysisRecord) (hc : ¬(c.analysis_id == analysisId) = true) :
    findOne (c :: rest) analysisId = findOne rest analysisId := by
  rw [findOne, findOne]
  exact List.find?_cons_of_neg (p := fun r => r.analysis_id == analysisId)
    rest hc

/-- The record `findOne` locates is the one `saveRecord` replaces: the
writes of one worker invocation are `List.set` at the index of the
first record carrying the identifier, and after the first write,
`findOne` returns the written record. -/
theorem findOne_writes {db : List AnalysisRecord} {analysisId : Str}
    {a : AnalysisRecord} (h : findOne db analysisId = some a)
    (v w : AnalysisRecord) (hv : (v.analysis_id == analysisId) = true) :
    ∃ k, k < db.length ∧ db[k]? = some a ∧
      saveRecord db analysisId v = db.set k v ∧
      saveRecord (saveRecord db analysisId v) analysisId w =
        (db.set k v).set k w ∧
      findOne (saveRecord db analysisId v) analysisId = some v := by
  induction db with
  | nil => simp [findOne] at h
  | cons c rest ih =>
    by_cases hc : (c.analysis_id == analysisId) = true
    · have hac : a = c := by
        rw [findOne_cons_pos rest hc] at h
        exact (Option.some_inj.mp h).symm
      refine ⟨0, by simp, by simp [hac], ?_, ?_, ?_⟩
      · simp [saveRecord, hc]
      · simp [saveRecord, hc, hv]
      · rw [saveRecord]
        simp only [hc, if_true]
        exact findOne_cons_pos rest hv
    · rw [findOne_cons_neg rest hc] at h
      obtain ⟨k, hk, hgk, hs1, hs2, hf⟩ := ih h
      refine ⟨k + 1, by simpa using hk, by simpa using hgk, ?_, ?_, ?_⟩
      · simp [saveRecord, hc, hs1]
      · simp [saveRecord, hc, hs2]
      · have hrw : saveRecord (c :: rest) analysisId v =
            c :: saveRecord rest analysisId v := by
          simp [saveRecord, hc]
        rw [hrw, findOne_cons_neg _ hc]
        exact hf

/-- A worker invocation on a job that is not `PENDING` writes
nothing. -/
theorem processAnalysisTrace_nonpending {db : List AnalysisRecord}
    {analysisId : Str} (model : ModelFn) (now : Nat) {a : AnalysisRecord}
    (hf : findOne db analysisId = some a)
    (hs : a.status ≠ AnalysisStatus.PENDING) :
    processAnalysisTrace db analysisId model now = [db] := by
  rw [processAnalysisTrace, hf]
  simp [hs]

/-- Unfolding of the worker's write sequence on a `PENDING` job whose
model call succeeds. -/
theorem processAnalysisTrace_pending_ok {db : List AnalysisRecord}
    {analysisId : Str} {model : ModelFn} (now : Nat) {a : AnalysisRecord}
    {res : AnalysisResult} (hf : findOne db analysisId = some a)
    (hp : a.status = AnalysisStatus.PENDING)
    (hm : model a.pgn (mkGameContext a.metadata) a.player_name
      a.player_color = .ok res) :
    processAnalysisTrace db analysisId model now =
      [db,
       saveRecord db analysisId
         { a with status := AnalysisStatus.PROCESSING },
       saveRecord
         (saveRecord db analysisId
           { a with status := AnalysisStatus.PROCESSING })
         analysisId
         { a with
           status := AnalysisStatus.COMPLETED
           result := some res
           completed_at := some now }] := by
  rw [processAnalysisTrace, hf]
  dsimp only []
  rw [if_neg (by simp [hp]), hm]

/-- Unfolding of the worker's write sequence on a `PENDING` job whose
model call throws. -/
theorem processAnalysisTrace_pending_error {db : List AnalysisRecord}
    {analysisId : Str} {model : ModelFn} (now : Nat) {a : AnalysisRecord}
    {e : JsThrown} (hf : findOne db analysisId = some a)
    (hp : a.status = AnalysisStatus.PENDING)
    (hm : model a.pgn (mkGameContext a.metadata) a.player_name
      a.player_color = .error e) :
    processAnalysisTrace db analysisId model now =
      [db,
       saveRecord db analysisId
         { a with status := AnalysisStatus.PROCESSING },
       saveRecord
         (saveRecord db analysisId
           { a with status := AnalysisStatus.PROCESSING })
         analysisId
         { a with
           status := AnalysisStatus.FAILED
           error := some (thrownMessage e) }] := by
  rw [processAnalysisTrace, hf]
  dsimp only []
  rw [if_neg (by simp [hp]), hm]

/-! ## Claim C3: idempotency guard and forward-only status machine -/

/-- C3: a worker invocation on a job whose stored status is not
`PENDING` performs no write (its trace is just the initial state) and
returns normally; consequently a second invocation after a first one
advanced the status past `PENDING` changes nothing, and along any
invocation's write sequence no record's status ever moves backwards on
the `pending → processing → {completed | failed}` scale. -/
theorem worker_guard_and_monotonicity (db : List AnalysisRecord)
    (analysisId : Str) (model : ModelFn) (now : Nat) :
    (∀ a : AnalysisRecord, findOne db analysisId = some a →
      a.status ≠ AnalysisStatus.PENDING →
      processAnalysisTrace db analysisId model now = [db] ∧
      processAnalysis db analysisId model now = db) ∧
    List.Chain' dbMono (processAnalysisTrace db analysisId model now) ∧
    (∀ (model2 : ModelFn) (now2 : Nat) (a : AnalysisRecord),
      findOne (processAnalysis db analysisId model now) analysisId = some a →
      a.status ≠ AnalysisStatus.PENDING →
      processAnalysis (processAnalysis db analysisId model now) analysisId
        model2 now2 = processAnalysis db analysisId model now) := by
  have noop : ∀ (d : List AnalysisRecord) (m : ModelFn) (t : Nat)
      (a : AnalysisRecord), findOne d analysisId = some a →
      a.status ≠ AnalysisStatus.PENDING →
      processAnalysisTrace d analysisId m t = [d] ∧
      processAnalysis d analysisId m t = d := by
    intro d m t a hf hs
    have h1 := processAnalysisTrace_nonpending m t hf hs
    exact ⟨h1, by rw [processAnalysis, h1]; rfl⟩
  have dbMonoSet : ∀ (d : List AnalysisRecord) (k : Nat)
      (u v : AnalysisRecord), k < d.length → d[k]? = some u →
      statusRank u.status ≤ statusRank v.status → dbMono d (d.set k v) := by
    intro d k u v hk hu hrank
    intro i x y hx hy
    by_cases hik : k = i
    · subst hik
      rw [List.getElem?_set_self hk] at hy
      rw [hu] at hx
      cases hx
      cases hy
      exact hrank
    · rw [List.getElem?_set, if_neg hik] at hy
      rw [hx] at hy
      cases hy
      exact Nat.le_refl _
  refine ⟨fun a hf hs => noop db model now a hf hs, ?_,
    fun model2 now2 a hf hs => (noop _ model2 now2 a hf hs).2⟩
  cases hf : findOne db analysisId with
  | none =>
    have h1 : processAnalysisTrace db analysisId model now = [db] := by
      rw [processAnalysisTrace, hf]
    rw [h1]
    exact List.chain'_singleton db
  | some a =>
    by_cases hp : a.status = AnalysisStatus.PENDING
    · have hvid : ((({ a with status := AnalysisStatus.PROCESSING } :
          AnalysisRecord)).analysis_id == analysisId) = true := by
        simpa using List.find?_some hf
      have main : ∀ v : AnalysisRecord,
          statusRank AnalysisStatus.PROCESSING ≤ statusRank v.status →
          List.Chain' dbMono [db,
            saveRecord db analysisId
              { a with status := AnalysisStatus.PROCESSING },
            saveRecord
              (saveRecord db analysisId
                { a with status := AnalysisStatus.PROCESSING })
              analysisId v] := by
        intro v hv
        obtain ⟨k, hk, hgk, hs1, hs2, -⟩ :=
          findOne_writes hf { a with status := AnalysisStatus.PROCESSING }
            v hvid
        rw [hs2, hs1]
        refine List.chain'_cons.mpr ⟨?_, List.chain'_cons.mpr
          ⟨?_, List.chain'_singleton _⟩⟩
        · exact dbMonoSet db k a _ hk hgk (by simp [hp, statusRank])
        · refine dbMonoSet _ k { a with status := AnalysisStatus.PROCESSING }
            v (by simpa using hk) ?_ hv
          exact List.getElem?_set_self hk
      cases hm : model a.pgn (mkGameContext a.metadata) a.player_name
          a.player_color with
      | ok res =>
        rw [processAnalysisTrace_pending_ok now hf hp hm]
        exact main _ (by simp [statusRank])
      | error e =>
        rw [processAnalysisTrace_pending_error now hf hp hm]
        exact main _ (by simp [statusRank])
    · rw [(noop db model now a hf (by simp [hp])).1]
      exact List.chain'_singleton db

/-- Witness for C3: the worker invoked on a job already `COMPLETED`
leaves the store untouched. -/
theorem worker_guard_and_monotonicity_witness :
    processAnalysisTrace [sampleCompletedRec] "a1".data constModelOk 0 =
      [[sampleCompletedRec]] ∧
    processAnalysis [sampleCompletedRec] "a1".data constModelOk 0 =
      [sampleCompletedRec] :=
  (worker_guard_and_monotonicity [sampleCompletedRec] "a1".data
    constModelOk 0).1 sampleCompletedRec (by rfl) (by decide)

/-! ## Claim C4: a throwing model call fails the job locally -/

/-- C4 (amended): when the worker runs on a `PENDING` job that carries
no result and the model call throws `e`, the worker catches the error
and returns normally (it produces a database state rather than
propagating an exception); the job ends `FAILED`, with a stored failure
reason — the thrown error's message, or `"Unknown error"` for a
non-`Error` throw — and still no `result` field.  The stored reason is
present but not necessarily a non-empty string: an `Error` whose
message is empty is stored verbatim (see the counterexample). -/
theorem worker_model_failure {db : List AnalysisRecord} {analysisId : Str}
    {model : ModelFn} (now : Nat) {a : AnalysisRecord} {e : JsThrown}
    (hf : findOne db analysisId = some a)
    (hp : a.status = AnalysisStatus.PENDING) (hr : a.result = none)
    (hm : model a.pgn (mkGameContext a.metadata) a.player_name
      a.player_color = .error e) :
    ∃ b : AnalysisRecord,
      findOne (processAnalysis db analysisId model now) analysisId = some b ∧
      b.status = AnalysisStatus.FAILED ∧
      b.error = some (thrownMessage e) ∧ b.error ≠ none ∧
      b.result = none := by
  have htr := processAnalysisTrace_pending_error now hf hp hm
  have hproc : processAnalysis db analysisId model now =
      saveRecord
        (saveRecord db analysisId
          { a with status := AnalysisStatus.PROCESSING })
        analysisId
        { a with
          status := AnalysisStatus.FAILED
          error := some (thrownMessage e) } := by
    rw [processAnalysis, htr]
    rfl
  have hvid : ((({ a with status := AnalysisStatus.PROCESSING } :
      AnalysisRecord)).analysis_id == analysisId) = true := by
    simpa using List.find?_some hf
  obtain ⟨k, -, -, -, -, hfind1⟩ :=
    findOne_writes hf { a with status := AnalysisStatus.PROCESSING }
      { a with
        status := AnalysisStatus.FAILED
        error := some (thrownMessage e) } hvid
  have hvid2 : ((({ a with
      status := AnalysisStatus.FAILED
      error := some (thrownMessage e) } :
      AnalysisRecord)).analysis_id == analysisId) = true := by
    simpa using List.find?_some hf
  obtain ⟨k2, -, -, -, -, hfind2⟩ :=
    findOne_writes hfind1
      { a with
        status := AnalysisStatus.FAILED
        error := some (thrownMessage e) }
      { a with
        status := AnalysisStatus.FAILED
        error := some (thrownMessage e) } hvid2
  refine ⟨{ a with
      status := AnalysisStatus.FAILED
      error := some (thrownMessage e) }, ?_, rfl, rfl, by simp, hr⟩
  rw [hproc]
  exact hfind2

/-- Witness for C4: a pending job whose model call throws an `Error`
with message `"boom"` ends `FAILED` with that reason stored and no
result. -/
theorem worker_model_failure_witness :
    ∃ b : AnalysisRecord,
      findOne (processAnalysis [samplePendingRec] "a1".data
        (constModelThrow (some "boom".data)) 7) "a1".data = some b ∧
      b.status = AnalysisStatus.FAILED ∧
      b.error = some (thrownMessage (some "boom".data)) ∧ b.error ≠ none ∧
      b.result = none :=
  worker_model_failure 7 (by rfl) (by rfl) (by rfl) (by rfl)

/-- Counterexample for C4 as stated: the claim promises a *non-empty*
stored failure reason, but when the model throws an `Error` whose
message is the empty string, the worker stores that empty message
verbatim — the job ends `FAILED` with a present but empty failure
reason (and no result). -/
theorem worker_failure_reason_empty_counterexample :
    (findOne (processAnalysis [samplePendingRec] "a1".data
        (constModelThrow (some [])) 0) "a1".data).map
      (fun b => (b.status, b.error, b.result)) =
      some (AnalysisStatus.FAILED, some ([] : Str),
        (none : Option AnalysisResult)) := by
  rfl

/-! ## Claim C5: result and failure reason are mutually exclusive -/

theorem recordInvariant_of_none {b : AnalysisRecord} (h1 : b.result = none)
    (h2 : b.error = none) : recordInvariant b :=
  ⟨fun hne => absurd h1 hne, fun hne => absurd h2 hne,
   fun hb => absurd h1 hb.1⟩

/-- Every state a worker invocation persists keeps every record's
invariant. -/
theorem trace_preserves_invariant {db : List AnalysisRecord}
    {analysisId : Str} {model : ModelFn} {now : Nat}
    (hdb : ∀ a ∈ db, recordInvariant a) :
    ∀ s ∈ processAnalysisTrace db analysisId model now,
      ∀ a ∈ s, recordInvariant a := by
  intro s hs
  cases hf : findOne db analysisId with
  | none =>
    rw [processAnalysisTrace, hf] at hs
    simp at hs
    subst hs
    exact hdb
  | some a =>
    by_cases hp : a.status = AnalysisStatus.PENDING
    · have hmema : a ∈ db := List.mem_of_find?_eq_some hf
      have hinv := hdb a hmema
      have hres : a.result = none := by
        by_contra hne
        have hc := hinv.1 hne
        rw [hp] at hc
        exact absurd hc (by decide)
      have herr : a.error = none := by
        by_contra hne
        have hc := hinv.2.1 hne
        rw [hp] at hc
        exact absurd hc (by decide)
      have hvid : ((({ a with status := AnalysisStatus.PROCESSING } :
          AnalysisRecord)).analysis_id == analysisId) = true := by
        simpa using List.find?_some hf
      have base : ∀ x ∈ db, recordInvariant x := hdb
      have middle : ∀ (k : Nat), ∀ x ∈ db.set k
          ({ a with status := AnalysisStatus.PROCESSING } : AnalysisRecord),
          recordInvariant x := by
        intro k x hx
        rcases List.mem_or_eq_of_mem_set hx with h | h
        · exact hdb x h
        · subst h
          exact recordInvariant_of_none hres herr
      cases hm : model a.pgn (mkGameContext a.metadata) a.player_name
          a.player_color with
      | ok res =>
        rw [processAnalysisTrace_pending_ok now hf hp hm] at hs
        obtain ⟨k, hk, hgk, hs1, hs2, -⟩ :=
          findOne_writes hf { a with status := AnalysisStatus.PROCESSING }
            { a with
              status := AnalysisStatus.COMPLETED
              result := some res
              completed_at := some now } hvid
        rw [hs2, hs1] at hs
        simp only [List.mem_cons, List.not_mem_nil, or_false] at hs
        rcases hs with h | h | h
        · subst h; exact base
        · subst h; exact middle k
        · subst h
          intro x hx
          rcases List.mem_or_eq_of_mem_set hx with h2 | h2
          · exact middle k x h2
          · subst h2
            exact ⟨fun _ => rfl, fun hne => absurd herr hne,
              fun hb => absurd herr hb.2⟩
      | error e =>
        rw [processAnalysisTrace_pending_error now hf hp hm] at hs
        obtain ⟨k, hk, hgk, hs1, hs2, -⟩ :=
          findOne_writes hf { a with status := AnalysisStatus.PROCESSING }
            { a with
              status := AnalysisStatus.FAILED
              error := some (thrownMessage e) } hvid
        rw [hs2, hs1] at hs
        simp only [List.mem_cons, List.not_mem_nil, or_false] at hs
        rcases hs with h | h | h
        · subst h; exact base
        · subst h; exact middle k
        · subst h
          intro x hx
          rcases List.mem_or_eq_of_mem_set hx with h2 | h2
          · exact middle k x h2
          · subst h2
            exact ⟨fun hne => absurd hres hne, fun _ => rfl,
              fun hb => absurd hres hb.1⟩
    · rw [processAnalysisTrace_nonpending model now hf (by simp [hp])] at hs
      simp at hs
      subst hs
      exact hdb

/-- C5: after any sequence of orchestrator job creations and worker
invocations (including every intermediate persisted state of a worker
run), no job record ever carries both a `result` and a failure reason;
a present `result` implies status `COMPLETED` and a present failure
reason implies status `FAILED`. -/
theorem record_invariant_reachable (db : List AnalysisRecord)
    (h : Reachable db) : ∀ a ∈ db, recordInvariant a := by
  induction h with
  | init => intro a ha; exact absurd ha (List.not_mem_nil a)
  | create db1 analysisId userId batchId url playerName color g h1 ih =>
    intro a ha
    rcases List.mem_append.mp ha with h2 | h2
    · exact ih a h2
    · have : a = mkAnalysisRecord analysisId userId batchId url playerName
          color g := by simpa using h2
      subst this
      exact recordInvariant_of_none rfl rfl
  | work db1 s analysisId model now h1 hmem ih =>
    exact trace_preserves_invariant ih s hmem

/-- Witness for C5: a job created by the orchestrator and completed by
the worker satisfies the invariant. -/
theorem record_invariant_reachable_witness :
    recordInvariant sampleCompletedRec :=
  record_invariant_reachable [sampleCompletedRec]
    (Reachable.work [samplePendingRec] [sampleCompletedRec] "a1".data
      constModelOk 5
      (Reachable.create [] "a1".data "u1".data "b1".data "gs://x".data
        "Ann".data PlayerColor.white sampleGame Reachable.init)
      (by decide))
    sampleCompletedRec (by decide)

/-! ## Bulk orchestrator lemmas -/

/-- With every dispatch succeeding, the game loop returns successfully
and every parsed game contributes exactly one returned identifier or
exactly one skip entry. -/
theorem processGames_ok {enq : Str → Bool} (idGen : Nat → Str)
    (userId playerName batchId url : Str) (henq : ∀ s, enq s = true) :
    ∀ (gs : List ParsedGame) (st : BulkState), ∃ st1 : BulkState,
      processGames enq idGen userId playerName batchId url gs st =
        (st1, true) ∧
      st1.ids.length + st1.skips.length =
        st.ids.length + st.skips.length + gs.length := by
  intro gs
  induction gs with
  | nil => intro st; exact ⟨st, rfl, by simp⟩
  | cons g gs ih =>
    intro st
    cases hdc : determinePlayerColor g.metadata playerName with
    | none =>
      obtain ⟨st1, heq, hlen⟩ := ih { st with skips := st.skips ++
        [⟨g.metadata.white, g.metadata.black, skipReason playerName⟩] }
      refine ⟨st1, ?_, ?_⟩
      · rw [processGames, hdc]
        exact heq
      · simp only [List.length_append, List.length_cons,
          List.length_nil] at hlen ⊢
        omega
    | some color =>
      obtain ⟨st1, heq, hlen⟩ := ih
        { ctr := st.ctr + 1
          recs := st.recs ++ [mkAnalysisRecord (idGen st.ctr) userId batchId
            url playerName color g]
          ids := st.ids ++ [idGen st.ctr]
          skips := st.skips }
      refine ⟨st1, ?_, ?_⟩
      · rw [processGames, hdc]
        simp only [henq (idGen st.ctr), if_true]
        exact heq
      · simp only [List.length_append, List.length_cons,
          List.length_nil] at hlen ⊢
        omega

/-- With every download and every dispatch succeeding, the URL loop
returns successfully and the counting discipline extends across
files. -/
theorem processUrls_ok {download : Str → Option Str} {enq : Str → Bool}
    (idGen : Nat → Str) (userId playerName batchId : Str)
    (henq : ∀ s, enq s = true) :
    ∀ (urls : List Str), (∀ u ∈ urls, (download u).isSome = true) →
    ∀ st : BulkState, ∃ st1 : BulkState,
      processUrls download enq idGen userId playerName batchId urls st =
        (st1, true) ∧
      st1.ids.length + st1.skips.length =
        st.ids.length + st.skips.length + totalParsedGames download urls := by
  intro urls
  induction urls with
  | nil =>
    intro _ st
    exact ⟨st, rfl, by simp [totalParsedGames]⟩
  | cons url rest ih =>
    intro hdl st
    obtain ⟨content, hc⟩ := Option.isSome_iff_exists.mp
      (hdl url (List.mem_cons_self url rest))
    obtain ⟨st1, heq1, hlen1⟩ := processGames_ok idGen userId playerName
      batchId url henq (splitPgn content) st
    obtain ⟨st2, heq2, hlen2⟩ := ih (fun u hu => hdl u (List.mem_cons_of_mem url hu)) st1
    refine ⟨st2, ?_, ?_⟩
    · rw [processUrls, hc]
      dsimp only []
      rw [heq1]
      exact heq2
    · rw [hlen2, hlen1]
      simp only [totalParsedGames, List.map_cons, List.sum_cons, hc,
        Option.getD_some]
      omega

/-! ## Claim C1: created + skipped = parsed -/

/-- C1: when every file download and every dispatch succeed, the bulk
submission returns a response, and the number of returned job
identifiers plus the number of returned skip entries equals the total
number of games parsed from all submitted files — each parsed game
contributes exactly one of the two. -/
theorem bulk_created_plus_skipped_eq_parsed (download : Str → Option Str)
    (enq : Str → Bool) (idGen : Nat → Str) (urls : List Str)
    (userId playerName batchId : Str)
    (hdl : ∀ u ∈ urls, (download u).isSome = true)
    (henq : ∀ s, enq s = true) :
    ∃ (r : BulkAnalysisResponse) (recs : List AnalysisRecord),
      processBulkAnalysis download enq idGen urls userId playerName batchId =
        (some r, recs) ∧
      r.analysis_ids.length + (r.skipped_games.getD []).length =
        totalParsedGames download urls := by
  obtain ⟨st1, heq, hlen⟩ := processUrls_ok idGen userId playerName batchId
    henq urls hdl ⟨0, [], [], []⟩
  refine ⟨{ batch_id := batchId
            analysis_ids := st1.ids
            total_games := st1.ids.length
            skipped_games :=
              if st1.skips.length > 0 then some st1.skips else none },
          st1.recs, ?_, ?_⟩
  · rw [processBulkAnalysis, heq]
  · simp only [List.length_nil, Nat.zero_add] at hlen
    by_cases hsk : st1.skips.length > 0
    · rw [if_pos hsk]
      simpa using hlen
    · rw [if_neg hsk]
      simp only [Option.getD_none, List.length_nil]
      omega

/-- Witness for C1: two files, three games, two of them featuring the
subject "Ann" — two identifiers and one skip entry, three games
parsed. -/
theorem bulk_created_plus_skipped_eq_parsed_witness :
    ∃ (r : BulkAnalysisResponse) (recs : List AnalysisRecord),
      processBulkAnalysis sampleDownload (fun _ => true)
        (fun _ => "ana".data) ["f1".data, "f2".data] "u1".data "Ann".data
        "b1".data = (some r, recs) ∧
      r.analysis_ids.length + (r.skipped_games.getD []).length =
        totalParsedGames sampleDownload ["f1".data, "f2".data] :=
  bulk_created_plus_skipped_eq_parsed sampleDownload (fun _ => true)
    (fun _ => "ana".data) ["f1".data, "f2".data] "u1".data "Ann".data
    "b1".data (by decide) (fun _ => rfl)

/-! ## Claim C8: a retrieval failure aborts the whole call, earlier
files' jobs remain -/

/-- The URL loop on `pre ++ u :: post` with `u` failing to download:
the loop stops at `u` with exactly the state the successful prefix
produced. -/
theorem processUrls_abort {download : Str → Option Str} {enq : Str → Bool}
    (idGen : Nat → Str) (userId playerName batchId : Str)
    (henq : ∀ s, enq s = true) {u : Str} (hu : download u = none)
    (post : List Str) :
    ∀ (pre : List Str), (∀ v ∈ pre, (download v).isSome = true) →
    ∀ st : BulkState,
      processUrls download enq idGen userId playerName batchId
        (pre ++ u :: post) st =
      ((processUrls download enq idGen userId playerName batchId pre st).1,
       false) := by
  intro pre
  induction pre with
  | nil =>
    intro _ st
    simp only [List.nil_append]
    have hl : processUrls download enq idGen userId playerName batchId
        (u :: post) st = (st, false) := by
      rw [processUrls, hu]
    have hr : processUrls download enq idGen userId playerName batchId
        [] st = (st, true) := rfl
    rw [hl, hr]
  | cons v rest ih =>
    intro hdl st
    obtain ⟨content, hc⟩ := Option.isSome_iff_exists.mp
      (hdl v (List.mem_cons_self v rest))
    obtain ⟨st1, heq1, -⟩ := processGames_ok idGen userId playerName
      batchId v henq (splitPgn content) st
    have hleft : processUrls download enq idGen userId playerName batchId
        ((v :: rest) ++ u :: post) st =
        processUrls download enq idGen userId playerName batchId
          (rest ++ u :: post) st1 := by
      simp only [List.cons_append]
      rw [processUrls, hc]
      dsimp only []
      rw [heq1]
    have hright : processUrls download enq idGen userId playerName batchId
        (v :: rest) st =
        processUrls download enq idGen userId playerName batchId rest st1 := by
      rw [processUrls, hc]
      dsimp only []
      rw [heq1]
    rw [hleft, hright]
    exact ih (fun x hx => hdl x (List.mem_cons_of_mem v hx)) st1

/-- C8: when the download of one file fails, the whole bulk submission
aborts with an error (no response), no job is created for any game of
the failing file or of any later file, and the jobs committed for the
earlier files in the same call remain committed exactly as the
successful prefix alone would have left them (no rollback). -/
theorem bulk_retrieval_failure_aborts (download : Str → Option Str)
    (enq : Str → Bool) (idGen : Nat → Str) (pre : List Str) (u : Str)
    (post : List Str) (userId playerName batchId : Str)
    (hdl : ∀ v ∈ pre, (download v).isSome = true)
    (henq : ∀ s, enq s = true) (hu : download u = none) :
    processBulkAnalysis download enq idGen (pre ++ u :: post) userId
      playerName batchId =
    (none,
     (processBulkAnalysis download enq idGen pre userId playerName
       batchId).2) := by
  obtain ⟨st1, heq1, -⟩ := processUrls_ok idGen userId playerName batchId
    henq pre hdl ⟨0, [], [], []⟩
  have habort := processUrls_abort idGen userId playerName batchId henq hu
    post pre hdl ⟨0, [], [], []⟩
  rw [processBulkAnalysis, habort, heq1]
  dsimp only []
  rw [processBulkAnalysis, heq1]

/-- Witness for C8: first file downloads and creates its jobs, second
file's download fails — the call aborts, keeping exactly the first
file's records. -/
theorem bulk_retrieval_failure_aborts_witness :
    processBulkAnalysis sampleDownload (fun _ => true)
      (fun _ => "ana".data) ["f1".data, "missing".data, "f2".data]
      "u1".data "Ann".data "b1".data =
    (none,
     (processBulkAnalysis sampleDownload (fun _ => true)
       (fun _ => "ana".data) ["f1".data] "u1".data "Ann".data
       "b1".data).2) :=
  bulk_retrieval_failure_aborts sampleDownload (fun _ => true)
    (fun _ => "ana".data) ["f1".data] "missing".data ["f2".data]
    "u1".data "Ann".data "b1".data (by decide) (fun _ => rfl) (by decide)

/-! ## Claim C10: an empty (or all-whitespace) subject name matches
white everywhere -/

/-- When every game resolves to white, the game loop never skips and
creates one job per game, all white. -/
theorem processGames_white {enq : Str → Bool} (idGen : Nat → Str)
    (userId playerName batchId url : Str) (henq : ∀ s, enq s = true)
    (hw : ∀ meta : AnalysisMetadata,
      determinePlayerColor meta playerName = some PlayerColor.white) :
    ∀ (gs : List ParsedGame) (st : BulkState), ∃ st1 : BulkState,
      processGames enq idGen userId playerName batchId url gs st =
        (st1, true) ∧
      st1.skips = st.skips ∧
      st1.ids.length = st.ids.length + gs.length ∧
      st1.recs.length = st.recs.length + gs.length ∧
      (∀ a ∈ st1.recs, a ∈ st.recs ∨
        a.player_color = some PlayerColor.white) := by
  intro gs
  induction gs with
  | nil =>
    intro st
    exact ⟨st, rfl, rfl, by simp, by simp, fun a ha => Or.inl ha⟩
  | cons g gs ih =>
    intro st
    obtain ⟨st1, heq, hskips, hids, hrecs, hmem⟩ := ih
      { ctr := st.ctr + 1
        recs := st.recs ++ [mkAnalysisRecord (idGen st.ctr) userId batchId
          url playerName PlayerColor.white g]
        ids := st.ids ++ [idGen st.ctr]
        skips := st.skips }
    refine ⟨st1, ?_, hskips, ?_, ?_, ?_⟩
    · rw [processGames, hw g.metadata]
      simp only [henq (idGen st.ctr), if_true]
      exact heq
    · simp only [List.length_append, List.length_cons, List.length_nil]
        at hids ⊢
      omega
    · simp only [List.length_append, List.length_cons, List.length_nil]
        at hrecs ⊢
      omega
    · intro a ha
      rcases hmem a ha with h | h
      · rcases List.mem_append.mp h with h2 | h2
        · exact Or.inl h2
        · right
          have : a = mkAnalysisRecord (idGen st.ctr) userId batchId url
              playerName PlayerColor.white g := by simpa using h2
          subst this
          rfl
      · exact Or.inr h

/-- URL-loop version of `processGames_white`. -/
theorem processUrls_white {download : Str → Option Str} {enq : Str → Bool}
    (idGen : Nat → Str) (userId playerName batchId : Str)
    (henq : ∀ s, enq s = true)
    (hw : ∀ meta : AnalysisMetadata,
      determinePlayerColor meta playerName = some PlayerColor.white) :
    ∀ (urls : List Str), (∀ u ∈ urls, (download u).isSome = true) →
    ∀ st : BulkState, ∃ st1 : BulkState,
      processUrls download enq idGen userId playerName batchId urls st =
        (st1, true) ∧
      st1.skips = st.skips ∧
      st1.ids.length = st.ids.length + totalParsedGames download urls ∧
      st1.recs.length = st.recs.length + totalParsedGames download urls ∧
      (∀ a ∈ st1.recs, a ∈ st.recs ∨
        a.player_color = some PlayerColor.white) := by
  intro urls
  induction urls with
  | nil =>
    intro _ st
    exact ⟨st, rfl, rfl, by simp [totalParsedGames],
      by simp [totalParsedGames], fun a ha => Or.inl ha⟩
  | cons url rest ih =>
    intro hdl st
    obtain ⟨content, hc⟩ := Option.isSome_iff_exists.mp
      (hdl url (List.mem_cons_self url rest))
    obtain ⟨st1, heq1, hsk1, hid1, hrc1, hm1⟩ := processGames_white idGen
      userId playerName batchId url henq hw (splitPgn content) st
    obtain ⟨st2, heq2, hsk2, hid2, hrc2, hm2⟩ := ih
      (fun u hu => hdl u (List.mem_cons_of_mem url hu)) st1
    refine ⟨st2, ?_, by rw [hsk2, hsk1], ?_, ?_, ?_⟩
    · rw [processUrls, hc]
      dsimp only []
      rw [heq1]
      exact heq2
    · rw [hid2, hid1]
      simp only [totalParsedGames, List.map_cons, List.sum_cons, hc,
        Option.getD_some]
      omega
    · rw [hrc2, hrc1]
      simp only [totalParsedGames, List.map_cons, List.sum_cons, hc,
        Option.getD_some]
      omega
    · intro a ha
      rcases hm2 a ha with h | h
      · exact hm1 a h
      · exact Or.inr h

/-- C10: a subject name that is empty or all whitespace normalizes to
the empty string, which is a substring of every participant name, so
the resolver always answers white; consequently a bulk submission with
such a subject name (all downloads and dispatches succeeding) produces
no skip entry and creates one job per parsed game, every one of them
resolved as white. -/
theorem empty_player_name_matches_white (name : Str)
    (hname : jsTrim (jsToLower name) = []) :
    (∀ metadata : AnalysisMetadata,
      determinePlayerColor metadata name = some PlayerColor.white) ∧
    (∀ (download : Str → Option Str) (enq : Str → Bool) (idGen : Nat → Str)
      (urls : List Str) (userId batchId : Str),
      (∀ u ∈ urls, (download u).isSome = true) → (∀ s, enq s = true) →
      ∃ (r : BulkAnalysisResponse) (recs : List AnalysisRecord),
        processBulkAnalysis download enq idGen urls userId name batchId =
          (some r, recs) ∧
        r.skipped_games = none ∧
        r.analysis_ids.length = totalParsedGames download urls ∧
        recs.length = totalParsedGames download urls ∧
        ∀ a ∈ recs, a.player_color = some PlayerColor.white) := by
  have hinc : ∀ w : Str, jsIncludes w [] = true := by
    intro w
    simp [jsIncludes]
  have hwhite : ∀ metadata : AnalysisMetadata,
      determinePlayerColor metadata name = some PlayerColor.white := by
    intro metadata
    rw [determinePlayerColor]
    simp [hname, hinc]
  refine ⟨hwhite, ?_⟩
  intro download enq idGen urls userId batchId hdl henq
  obtain ⟨st1, heq, hsk, hid, hrc, hm⟩ := processUrls_white idGen userId
    name batchId henq hwhite urls hdl ⟨0, [], [], []⟩
  refine ⟨{ batch_id := batchId
            analysis_ids := st1.ids
            total_games := st1.ids.length
            skipped_games :=
              if st1.skips.length > 0 then some st1.skips else none },
          st1.recs, ?_, ?_, ?_, ?_, ?_⟩
  · rw [processBulkAnalysis, heq]
  · simp [hsk]
  · simpa using hid
  · simpa using hrc
  · intro a ha
    rcases hm a ha with h | h
    · exact absurd h (List.not_mem_nil a)
    · exact h

/-- Witness for C10: bulk submission of `f2` (whose one game features
neither "Ann" nor an empty name) with an all-whitespace subject name
creates one white job and no skip entry. -/
theorem empty_player_name_matches_white_witness :
    ∃ (r : BulkAnalysisResponse) (recs : List AnalysisRecord),
      processBulkAnalysis sampleDownload (fun _ => true)
        (fun _ => "ana".data) ["f2".data] "u1".data "  ".data "b1".data =
        (some r, recs) ∧
      r.skipped_games = none ∧
      r.analysis_ids.length = totalParsedGames sampleDownload ["f2".data] ∧
      recs.length = totalParsedGames sampleDownload ["f2".data] ∧
      ∀ a ∈ recs, a.player_color = some PlayerColor.white :=
  (empty_player_name_matches_white "  ".data (by decide)).2 sampleDownload
    (fun _ => true) (fun _ => "ana".data) ["f2".data] "u1".data "b1".data
    (by decide) (fun _ => rfl)

/-! ## Claim C9: the multi-status query -/

/-- C9 (amended): the mapping returned by the multi-status query has as
keys exactly those queried identifiers that belong to a job record of
the caller — an identifier with no matching owned record is absent from
the mapping — and each key maps to an entry holding only that job's
status. -/
theorem getAnalysesStatus_keys (db : List AnalysisRecord) (ids : List Str)
    (userId : Str) :
    (∀ k : Str, k ∈ (getAnalysesStatus db ids userId).map Prod.fst ↔
      (k ∈ ids ∧ ∃ a ∈ db, a.analysis_id = k ∧ a.user_id = userId)) ∧
    (∀ (k : Str) (status : AnalysisStatus),
      (k, status) ∈ getAnalysesStatus db ids userId →
      ∃ a ∈ db, a.analysis_id = k ∧ a.user_id = userId ∧
        a.status = status) := by
  constructor
  · intro k
    constructor
    · intro hk
      rw [List.mem_map] at hk
      obtain ⟨p, hp, hfst⟩ := hk
      rw [getAnalysesStatus, List.mem_map] at hp
      obtain ⟨a, ha, hpa⟩ := hp
      rw [List.mem_filter] at ha
      have hpred := ha.2
      rw [Bool.and_eq_true] at hpred
      have hcontains : a.analysis_id ∈ ids := by
        have := hpred.1
        simpa using this
      have huid : a.user_id = userId := by
        have := hpred.2
        simpa using this
      have hkid : a.analysis_id = k := by
        rw [← hpa] at hfst
        simpa using hfst
      exact ⟨hkid ▸ hcontains, a, ha.1, hkid, huid⟩
    · rintro ⟨hkids, a, hadb, haid, hauid⟩
      rw [List.mem_map]
      refine ⟨(a.analysis_id, a.status), ?_, by simp [haid]⟩
      rw [getAnalysesStatus, List.mem_map]
      refine ⟨a, ?_, rfl⟩
      rw [List.mem_filter]
      refine ⟨hadb, ?_⟩
      rw [Bool.and_eq_true]
      constructor
      · simp [haid ▸ hkids]
      · simp [hauid]
  · intro k status hk
    rw [getAnalysesStatus, List.mem_map] at hk
    obtain ⟨a, ha, hpa⟩ := hk
    rw [List.mem_filter] at ha
    have hpred := ha.2
    rw [Bool.and_eq_true] at hpred
    have huid : a.user_id = userId := by
      have := hpred.2
      simpa using this
    have hkid : a.analysis_id = k := congrArg Prod.fst hpa
    have hst : a.status = status := congrArg Prod.snd hpa
    exact ⟨a, ha.1, hkid, huid, hst⟩

/-- Witness for C9's amended theorem: a completed owned job queried by
its identifier is reported with exactly its status. -/
theorem getAnalysesStatus_keys_witness :
    ∃ a ∈ [sampleCompletedRec], a.analysis_id = "a1".data ∧
      a.user_id = "u1".data ∧ a.status = AnalysisStatus.COMPLETED :=
  (getAnalysesStatus_keys [sampleCompletedRec] ["a1".data] "u1".data).2
    "a1".data AnalysisStatus.COMPLETED (by decide)

/-- Counterexample for C9 as stated: the claim promises that the keys
are exactly the queried identifiers, but a queried identifier with no
job record (here `"b1"`) is simply absent from the returned mapping. -/
theorem getAnalysesStatus_missing_id_counterexample :
    "b1".data ∈ ["a1".data, "b1".data] ∧
    ¬("b1".data ∈ (getAnalysesStatus [sampleCompletedRec]
      ["a1".data, "b1".data] "u1".data).map Prod.fst) := by
  decide

/-! ## Claim C7: header extraction defaults and case-insensitivity -/

theorem lowerChar_idem (c : Char) : lowerChar (lowerChar c) = lowerChar c := by
  unfold lowerChar
  by_cases h : 65 ≤ c.toNat ∧ c.toNat ≤ 90
  · rw [if_pos h]
    have hval : (Char.ofNat (c.toNat + 32)).toNat = c.toNat + 32 := by
      have hv : (c.toNat + 32).isValidChar := by
        left
        omega
      simp [Char.ofNat, hv]
      rfl
    rw [if_neg]
    rw [hval]
    omega
  · rw [if_neg h, if_neg h]

theorem eatNameCI_lower (name : Str) :
    ∀ l : Str, eatNameCI (name.map lowerChar) l = eatNameCI name l := by
  induction name with
  | nil => intro l; rfl
  | cons c cs ih =>
    intro l
    cases l with
    | nil => rfl
    | cons x xs =>
      simp only [List.map_cons, eatNameCI, lowerChar_idem, ih]

theorem matchHeaderHere_lower (name l : Str) :
    matchHeaderHere (name.map lowerChar) l = matchHeaderHere name l := by
  cases l with
  | nil => rfl
  | cons b l1 =>
    simp only [matchHeaderHere, eatNameCI_lower]

theorem getHeader_lower (name : Str) :
    ∀ pgn : Str, getHeader (name.map lowerChar) pgn = getHeader name pgn := by
  intro pgn
  rw [getHeader, getHeader]
  induction pgn with
  | nil => rfl
  | cons c cs ih =>
    simp only [matchHeaderFrom, matchHeaderHere_lower, ih]

/-- C7: header extraction looks for each recognized field with the
case-insensitive tag-and-quoted-value pattern (lowercasing the tag
leaves the lookup unchanged); a missing participant or outcome header
yields the explicit unknown sentinel (`"Unknown"` for white/black, the
PGN unknown-outcome marker `"*"` for the result) instead of failing,
while the optional fields (event, date, opening code, opening name) are
exactly the lookup's result — absent (`none`) when not found. -/
theorem parseHeaders_policy (pgn : Str) :
    ((parseHeaders pgn).event = getHeader "Event".data pgn ∧
     (parseHeaders pgn).date = getHeader "Date".data pgn ∧
     (parseHeaders pgn).eco = getHeader "ECO".data pgn ∧
     (parseHeaders pgn).opening = getHeader "Opening".data pgn) ∧
    (getHeader "White".data pgn = none →
      (parseHeaders pgn).white = "Unknown".data) ∧
    (getHeader "Black".data pgn = none →
      (parseHeaders pgn).black = "Unknown".data) ∧
    (getHeader "Result".data pgn = none →
      (parseHeaders pgn).result = "*".data) ∧
    (∀ name : Str, getHeader (jsToLower name) pgn = getHeader name pgn) := by
  refine ⟨⟨rfl, rfl, rfl, rfl⟩, ?_, ?_, ?_, fun name => getHeader_lower name pgn⟩
  · intro h
    simp [parseHeaders, jsOrStr, h]
  · intro h
    simp [parseHeaders, jsOrStr, h]
  · intro h
    simp [parseHeaders, jsOrStr, h]

/-- Witness for C7: a headerless game text gets all three sentinels and
no optional fields, and a lowercased tag finds the same header. -/
theorem parseHeaders_policy_witness :
    (parseHeaders "1. e4 e5".data).white = "Unknown".data ∧
    (parseHeaders "1. e4 e5".data).black = "Unknown".data ∧
    (parseHeaders "1. e4 e5".data).result = "*".data ∧
    getHeader (jsToLower "White".data) "[White \"Ann\"]\n1. e4".data =
      getHeader "White".data "[White \"Ann\"]\n1. e4".data :=
  ⟨(parseHeaders_policy "1. e4 e5".data).2.1 (by decide),
   (parseHeaders_policy "1. e4 e5".data).2.2.1 (by decide),
   (parseHeaders_policy "1. e4 e5".data).2.2.2.1 (by decide),
   (parseHeaders_policy "[White \"Ann\"]\n1. e4".data).2.2.2.2 "White".data⟩

/-! ## Claim C6: splitting well-formed multi-game text -/

theorem splitAux_nil (acc : Str) : splitAux [] acc = [acc.reverse] := by
  rw [splitAux]
  rfl

theorem splitAux_sep {l : Str} {n : Nat} (h : sepMatchLen l = some n)
    (acc : Str) :
    splitAux l acc = acc.reverse :: splitAux (l.drop n) [] := by
  rw [splitAux]
  split
  · rename_i m hm
    rw [h] at hm
    cases hm
    rfl
  · rename_i hm
    rw [h] at hm
    cases hm

theorem splitAux_cons_noSep {c : Char} {cs : Str}
    (h : sepMatchLen (c :: cs) = none) (acc : Str) :
    splitAux (c :: cs) acc = splitAux cs (c :: acc) := by
  rw [splitAux]
  split
  · rename_i m hm
    rw [h] at hm
    cases hm
  · rfl

/-- `\s*\n(?=\[)` never matches inside pure whitespace (the lookahead
`[` is not whitespace). -/
theorem matchStarNl_allWs {w : Str} (h : ∀ c ∈ w, isWs c = true) :
    matchStarNl w = none := by
  induction w with
  | nil => rfl
  | cons c cs ih =>
    have hc : isWs c = true := h c (List.mem_cons_self c cs)
    rw [matchStarNl, if_pos hc, ih (fun x hx => h x (List.mem_cons_of_mem c hx))]
    cases cs with
    | nil => simp
    | cons d ds =>
      have hd : isWs d = true := h d (List.mem_cons_of_mem c
        (List.mem_cons_self d ds))
      have hdne : d ≠ '[' := by
        intro he
        rw [he] at hd
        exact absurd hd (by decide)
      simp [hdne]

/-- Closed form of the backtracking `\s*\n(?=\[)` matcher on a
whitespace run followed by a non-whitespace character: it matches
exactly when that character is `[` and the run ends with a newline. -/
theorem matchStarNl_closed {w : Str} {c : Char} {r : Str}
    (hw : ∀ x ∈ w, isWs x = true) (hc : isWs c = false) :
    matchStarNl (w ++ c :: r) =
      if c = '[' ∧ w.getLast? = some '\n' then some w.length else none := by
  induction w with
  | nil =>
    rw [List.nil_append, matchStarNl, if_neg (by simp [hc])]
    simp
  | cons a w1 ih =>
    have ha : isWs a = true := hw a (List.mem_cons_self a w1)
    have hw1 : ∀ x ∈ w1, isWs x = true :=
      fun x hx => hw x (List.mem_cons_of_mem a hx)
    rw [List.cons_append, matchStarNl, if_pos ha, ih hw1]
    by_cases hcond : c = '[' ∧ w1.getLast? = some '\n'
    · rw [if_pos hcond]
      have hne : w1 ≠ [] := by
        intro he
        rw [he] at hcond
        simp at hcond
      have hlast : (a :: w1).getLast? = w1.getLast? := by
        cases w1 with
        | nil => exact absurd rfl hne
        | cons b bs => exact List.getLast?_cons_cons
      have hcond2 : c = '[' ∧ (a :: w1).getLast? = some '\n' := by
        refine ⟨hcond.1, ?_⟩
        rw [hlast]
        exact hcond.2
      rw [if_pos hcond2]
      simp
    · rw [if_neg hcond]
      cases w1 with
      | nil =>
        simp only [List.nil_append]
        by_cases h1 : a = '\n'
        · by_cases h2 : c = '['
          · rw [if_pos (by simp [h1, h2]), if_pos (by simp [h1, h2])]
            rfl
          · rw [if_neg (by simp [h2]), if_neg (by simp [h2])]
        · rw [if_neg (by simp [h1]), if_neg (by simp [h1])]
      | cons b bs =>
        have hb : isWs b = true := hw1 b (List.mem_cons_self b bs)
        have hbne : b ≠ '[' := by
          intro he
          rw [he] at hb
          exact absurd hb (by decide)
        rw [if_neg (by simp [hbne]), if_neg (by
          intro hcc
          exact hcond ⟨hcc.1, by
            have := hcc.2
            rwa [List.getLast?_cons_cons] at this⟩)]

/-- A separator match at the head of `'\n' :: w ++ '\n' :: '[' :: r`
consumes exactly the separator. -/
theorem sepMatchLen_boundary {w : Str} (hw : ∀ x ∈ w, isWs x = true)
    (r : Str) :
    sepMatchLen ('\n' :: w ++ '\n' :: '[' :: r) = some (w.length + 2) := by
  have hassoc : w ++ '\n' :: '[' :: r = (w ++ ['\n']) ++ '[' :: r := by
    simp
  have hws : ∀ x ∈ w ++ ['\n'], isWs x = true := by
    intro x hx
    rcases List.mem_append.mp hx with h | h
    · exact hw x h
    · simp at h
      subst h
      rfl
  have hcons : ∀ (c : Char) (cs : Str), sepMatchLen (c :: cs) =
      if c = '\n' then (matchStarNl cs).map (· + 1) else none :=
    fun c cs => rfl
  rw [List.cons_append, hcons, if_pos rfl, hassoc,
    matchStarNl_closed hws (by decide)]
  rw [if_pos ⟨rfl, List.getLast?_concat w⟩]
  simp

/-- The first non-whitespace character of the tail of a headless
`dropWhile` run fails the predicate. -/
theorem dropWhile_head_false {p : Char → Bool} :
    ∀ {l : Str} {e : Char} {r : Str}, l.dropWhile p = e :: r →
      p e = false := by
  intro l
  induction l with
  | nil => intro e r h; cases h
  | cons x xs ih =>
    intro e r h
    rw [List.dropWhile_cons] at h
    by_cases hx : p x = true
    · rw [if_pos hx] at h
      exact ih h
    · rw [if_neg hx] at h
      cases h
      exact Bool.not_eq_true _ |>.mp hx

/-- A separator match is decided within the region up to and including
the first non-whitespace character after the leading newline, so a
suffix containing a non-whitespace character matches the same with any
continuation appended. -/
theorem sepMatchLen_append {d : Str} (t : Str)
    (hnw : ∃ c ∈ d, isWs c = false) :
    sepMatchLen (d ++ t) = sepMatchLen d := by
  cases d with
  | nil => simp at hnw
  | cons a d1 =>
    have hcons : ∀ (c : Char) (cs : Str), sepMatchLen (c :: cs) =
        if c = '\n' then (matchStarNl cs).map (· + 1) else none :=
      fun c cs => rfl
    by_cases ha : a = '\n'
    · subst ha
      have hd1 : ∃ c ∈ d1, isWs c = false := by
        obtain ⟨c, hc, hcw⟩ := hnw
        rcases List.mem_cons.mp hc with h | h
        · subst h
          simp [isWs] at hcw
        · exact ⟨c, h, hcw⟩
      have hdw : d1.dropWhile isWs ≠ [] := by
        intro he
        obtain ⟨c, hc, hcw⟩ := hd1
        have hall := List.dropWhile_eq_nil_iff.mp he
        rw [hall c hc] at hcw
        cases hcw
      obtain ⟨e, r1, her⟩ : ∃ e r1, d1.dropWhile isWs = e :: r1 := by
        cases hdrop : d1.dropWhile isWs with
        | nil => exact absurd hdrop hdw
        | cons e r1 => exact ⟨e, r1, rfl⟩
      have he : isWs e = false := dropWhile_head_false her
      have hdec : d1 = d1.takeWhile isWs ++ e :: r1 := by
        rw [← her, List.takeWhile_append_dropWhile]
      have htw : ∀ x ∈ d1.takeWhile isWs, isWs x = true :=
        fun x hx => List.mem_takeWhile_imp hx
      have hmeq : matchStarNl (d1 ++ t) = matchStarNl d1 := by
        have h1 : d1 ++ t = d1.takeWhile isWs ++ e :: (r1 ++ t) := by
          conv in d1 ++ t => rw [hdec]
          simp
        rw [h1, matchStarNl_closed htw he]
        conv in matchStarNl d1 => rw [hdec]
        rw [matchStarNl_closed htw he]
      rw [List.cons_append, hcons, hcons, hmeq]
    · rw [List.cons_append, hcons, hcons, if_neg ha, if_neg ha]

/-- `hasSepB g = false` means no suffix of `g` starts a separator
match. -/
theorem hasSepB_drop {g : Str} (h : hasSepB g = false) :
    ∀ j : Nat, sepMatchLen (g.drop j) = none := by
  induction g with
  | nil => intro j; simp [sepMatchLen]
  | cons c cs ih =>
    rw [hasSepB, Bool.or_eq_false_iff] at h
    intro j
    cases j with
    | zero =>
      rw [List.drop_zero]
      exact Option.not_isSome_iff_eq_none.mp (by simp [h.1])
    | succ j1 =>
      rw [List.drop_succ_cons]
      exact ih h.2 j1

/-- Dropping fewer characters than the length keeps the last
element. -/
theorem getLast?_drop_eq : ∀ (g : Str) (j : Nat), j < g.length →
    (g.drop j).getLast? = g.getLast? := by
  intro g
  induction g with
  | nil => intro j h; simp at h
  | cons a g1 ih =>
    intro j hj
    cases j with
    | zero => rfl
    | succ j1 =>
      rw [List.drop_succ_cons]
      have hj1 : j1 < g1.length := by
        simp at hj
        omega
      rw [ih j1 hj1]
      have hne : g1 ≠ [] := by
        intro he
        rw [he] at hj1
        simp at hj1
      cases g1 with
      | nil => exact absurd rfl hne
      | cons b bs => rw [List.getLast?_cons_cons]

/-- Every proper suffix of a trimmed non-empty text contains a
non-whitespace character (its last one). -/
theorem drop_has_nonws {g : Str} (hne : g ≠ [])
    (hlast : isWs (g.getLastD '[') = false) :
    ∀ j : Nat, j < g.length → ∃ c ∈ g.drop j, isWs c = false := by
  intro j hj
  obtain ⟨x, hx⟩ : ∃ x, g.getLast? = some x := by
    cases hg : g.getLast? with
    | none => exact absurd (List.getLast?_eq_none_iff.mp hg) hne
    | some x => exact ⟨x, rfl⟩
  have hxw : isWs x = false := by
    have : g.getLastD '[' = x := by
      rw [List.getLastD_eq_getLast?, hx]
      rfl
    rw [← this]
    exact hlast
  have hdx : (g.drop j).getLast? = some x := by
    rw [getLast?_drop_eq g j hj]
    exact hx
  have hmem : x ∈ g.drop j := by
    have hne2 : g.drop j ≠ [] := by
      intro he
      rw [he] at hdx
      cases hdx
    obtain ⟨h3, h4⟩ := List.mem_getLast?_eq_getLast (l := g.drop j)
      (by rw [hdx]; exact rfl)
    rw [h4]
    exact List.getLast_mem h3
  exact ⟨x, hmem, hxw⟩

/-- Scanning through a region with no separator match just moves it
into the accumulator. -/
theorem splitAux_through : ∀ (g tail acc : Str),
    (∀ j : Nat, j < g.length → sepMatchLen (g.drop j ++ tail) = none) →
    splitAux (g ++ tail) acc = splitAux tail (g.reverse ++ acc) := by
  intro g
  induction g with
  | nil => intro tail acc _; simp
  | cons c g1 ih =>
    intro tail acc hcond
    have h0 : sepMatchLen (c :: (g1 ++ tail)) = none := by
      have := hcond 0 (by simp)
      simpa using this
    rw [List.cons_append, splitAux_cons_noSep h0]
    have ih2 := ih tail (c :: acc) (fun j hj => by
      have := hcond (j + 1) (by simp; omega)
      simpa using this)
    rw [ih2]
    simp

theorem joinPgn_ne_nil {g : Str} (hg : g ≠ []) (pairs : List (Str × Str)) :
    joinPgn g pairs ≠ [] := by
  cases pairs with
  | nil => exact hg
  | cons p rest =>
    cases p with
    | mk s g2 =>
      rw [joinPgn]
      simp [hg]

theorem joinPgn_head? {g : Str} (hg : g ≠ []) (pairs : List (Str × Str)) :
    (joinPgn g pairs).head? = g.head? := by
  cases pairs with
  | nil => rfl
  | cons p rest =>
    cases p with
    | mk s g2 =>
      rw [joinPgn]
      cases g with
      | nil => exact absurd rfl hg
      | cons c cs => rfl

theorem joinPgn_getLast? :
    ∀ (pairs : List (Str × Str)) (g : Str), g ≠ [] →
      (∀ p ∈ pairs, p.2 ≠ []) →
      (joinPgn g pairs).getLast? =
        ((pairs.map Prod.snd).getLastD g).getLast? := by
  intro pairs
  induction pairs with
  | nil => intro g _ _; rfl
  | cons p rest ih =>
    intro g hg hp
    cases p with
    | mk s g2 =>
      have hg2 : g2 ≠ [] := hp (s, g2) (List.mem_cons_self _ _)
      have hrest : ∀ q ∈ rest, q.2 ≠ [] :=
        fun q hq => hp q (List.mem_cons_of_mem _ hq)
      rw [joinPgn]
      have hjoin : joinPgn g2 rest ≠ [] := joinPgn_ne_nil hg2 rest
      have h1 : (g ++ (s ++ joinPgn g2 rest)).getLast? =
          (joinPgn g2 rest).getLast? := by
        rw [List.getLast?_append, List.getLast?_append]
        cases hj : (joinPgn g2 rest).getLast? with
        | none => exact absurd (List.getLast?_eq_none_iff.mp hj) hjoin
        | some x => rfl
      rw [List.append_assoc, h1, ih g2 hg2 hrest]
      have hmap : (List.map Prod.snd ((s, g2) :: rest)).getLastD g =
          (List.map Prod.snd rest).getLastD g2 := by
        rw [List.map_cons, List.getLastD_cons]
      rw [hmap]

/-- A text whose first and last characters are not whitespace is left
unchanged by `trim`. -/
theorem jsTrim_eq_self {g : Str} {c : Char} (hhead : g.head? = some c)
    (hc : isWs c = false) (hlast : isWs (g.getLastD '[') = false) :
    jsTrim g = g := by
  cases g with
  | nil => cases hhead
  | cons a g1 =>
    have hac : a = c := by simpa using hhead
    subst hac
    rw [jsTrim]
    have h1 : (a :: g1).dropWhile isWs = a :: g1 := by
      rw [List.dropWhile_cons, if_neg (by simp [hc])]
    rw [h1]
    obtain ⟨x, hx⟩ : ∃ x, (a :: g1).getLast? = some x :=
      ⟨(a :: g1).getLast (by simp), List.getLast?_eq_getLast _ _⟩
    have hxw : isWs x = false := by
      have : (a :: g1).getLastD '[' = x := by
        rw [List.getLastD_eq_getLast?, hx]
        rfl
      rw [← this]
      exact hlast
    have h2 : (a :: g1).reverse.dropWhile isWs = (a :: g1).reverse := by
      cases hrev : (a :: g1).reverse with
      | nil =>
        have := congrArg List.length hrev
        simp at this
      | cons y ys =>
        have hy : y = x := by
          have := List.head?_reverse (a :: g1)
          rw [hrev, hx] at this
          simpa using this
        subst hy
        rw [List.dropWhile_cons, if_neg (by simp [hxw])]
    rw [h2, List.reverse_reverse]

/-- Splitting the join of well-formed records and separators recovers
exactly the records, in order. -/
theorem splitAux_joinPgn :
    ∀ (pairs : List (Str × Str)) (g : Str), wfGame g →
      (∀ p ∈ pairs, wfSep p.1 ∧ wfGame p.2) →
      splitAux (joinPgn g pairs) [] = g :: pairs.map Prod.snd := by
  intro pairs
  induction pairs with
  | nil =>
    intro g hg _
    obtain ⟨hne, hhead, hlast, hsep⟩ := hg
    have hcond : ∀ j : Nat, j < g.length →
        sepMatchLen (g.drop j ++ ([] : Str)) = none := by
      intro j hj
      rw [List.append_nil]
      exact hasSepB_drop hsep j
    have h7 := splitAux_through g [] [] hcond
    rw [List.append_nil] at h7
    rw [joinPgn, h7, splitAux_nil]
    simp
  | cons p rest ih =>
    intro g hg hp
    cases p with
    | mk s g2 =>
      obtain ⟨hsepwf, hg2⟩ := hp (s, g2) (List.mem_cons_self _ _)
      have hrest : ∀ q ∈ rest, wfSep q.1 ∧ wfGame q.2 :=
        fun q hq => hp q (List.mem_cons_of_mem _ hq)
      obtain ⟨hne, hhead, hlast, hsepg⟩ := hg
      obtain ⟨w, hw, hs0⟩ := hsepwf
      have hs : s = '\n' :: w ++ ['\n'] := hs0
      -- the rest of the text after this record's separator
      have hxhead : (joinPgn g2 rest).head? = some '[' := by
        rw [joinPgn_head? hg2.1 rest]
        exact hg2.2.1
      obtain ⟨x1, hx1⟩ : ∃ x1, joinPgn g2 rest = '[' :: x1 := by
        cases hj : joinPgn g2 rest with
        | nil => rw [hj] at hxhead; cases hxhead
        | cons y ys =>
          rw [hj] at hxhead
          have : y = '[' := by simpa using hxhead
          subst this
          exact ⟨ys, rfl⟩
      have hcond : ∀ j : Nat, j < g.length →
          sepMatchLen (g.drop j ++ (s ++ joinPgn g2 rest)) = none := by
        intro j hj
        rw [sepMatchLen_append _ (drop_has_nonws hne hlast j hj)]
        exact hasSepB_drop hsepg j
      rw [joinPgn, List.append_assoc, splitAux_through g _ [] hcond]
      have hsm : sepMatchLen (s ++ joinPgn g2 rest) =
          some s.length := by
        rw [hs, hx1]
        have : ('\n' :: w ++ ['\n']) ++ '[' :: x1 =
            ('\n' :: w) ++ '\n' :: '[' :: x1 := by
          simp
        rw [this, sepMatchLen_boundary hw x1]
        simp
      rw [splitAux_sep hsm, List.drop_left, ih g2 hg2 hrest]
      simp

/-- On trimmed non-empty fragments, the game loop of `splitPgn` keeps
every fragment, in order. -/
theorem splitPgnGames_all_trimmed :
    ∀ l : List Str, (∀ x ∈ l, jsTrim x = x ∧ x ≠ []) →
      (splitPgnGames l).map ParsedGame.pgn = l := by
  have hstep : ∀ (g : Str) (gs : List Str), splitPgnGames (g :: gs) =
      if (jsTrim g).length = 0 then splitPgnGames gs
      else ⟨jsTrim g, parseHeaders (jsTrim g)⟩ :: splitPgnGames gs :=
    fun _ _ => rfl
  intro l
  induction l with
  | nil => intro _; rfl
  | cons g gs ih =>
    intro h
    obtain ⟨ht, hne⟩ := h g (List.mem_cons_self g gs)
    have hlen : ¬(jsTrim g).length = 0 := by
      rw [ht]
      simpa using hne
    rw [hstep, if_neg hlen, List.map_cons, ht,
      ih (fun x hx => h x (List.mem_cons_of_mem g hx))]

/-- The last element under a default is the default or a member. -/
theorem getLastD_mem_or :
    ∀ (l : List Str) (d : Str), l.getLastD d = d ∨ l.getLastD d ∈ l := by
  intro l
  induction l with
  | nil => intro d; exact Or.inl rfl
  | cons b l1 ih =>
    intro d
    rw [List.getLastD_cons]
    rcases ih b with h | h
    · exact Or.inr (by rw [h]; exact List.mem_cons_self b l1)
    · exact Or.inr (List.mem_cons_of_mem b h)

/-- C6: splitting a well-formed multi-game text — records headed by
`[`, trimmed, free of internal separators, joined by blank-line
boundaries immediately followed by the next header block — produces
exactly the original records: one non-empty game text per record, in
order, with empty fragments discarded. -/
theorem splitPgn_wellformed (g : Str) (pairs : List (Str × Str))
    (hg : wfGame g) (hp : ∀ p ∈ pairs, wfSep p.1 ∧ wfGame p.2) :
    (splitPgn (joinPgn g pairs)).map ParsedGame.pgn =
      g :: pairs.map Prod.snd ∧
    (splitPgn (joinPgn g pairs)).length = pairs.length + 1 ∧
    ∀ q ∈ splitPgn (joinPgn g pairs), q.pgn ≠ [] := by
  have hwfall : ∀ x ∈ g :: pairs.map Prod.snd, wfGame x := by
    intro x hx
    rcases List.mem_cons.mp hx with h | h
    · subst h
      exact hg
    · rw [List.mem_map] at h
      obtain ⟨p, hpmem, hpx⟩ := h
      subst hpx
      exact (hp p hpmem).2
  have htrimmed : ∀ x ∈ g :: pairs.map Prod.snd, jsTrim x = x ∧ x ≠ [] := by
    intro x hx
    obtain ⟨hne, hhead, hlast, -⟩ := hwfall x hx
    exact ⟨jsTrim_eq_self hhead (by decide) hlast, hne⟩
  have hlastwf : wfGame ((pairs.map Prod.snd).getLastD g) := by
    rcases getLastD_mem_or (pairs.map Prod.snd) g with h | h
    · rw [h]
      exact hg
    · exact hwfall _ (List.mem_cons_of_mem g h)
  have hgames_ne : ∀ q ∈ pairs, q.2 ≠ [] := fun q hq => (hp q hq).2.1
  have hcl : (joinPgn g pairs).getLast? =
      ((pairs.map Prod.snd).getLastD g).getLast? :=
    joinPgn_getLast? pairs g hg.1 hgames_ne
  have hcontent_last : isWs ((joinPgn g pairs).getLastD '[') = false := by
    rw [List.getLastD_eq_getLast?, hcl, ← List.getLastD_eq_getLast?]
    exact hlastwf.2.2.1
  have hcontent_head : (joinPgn g pairs).head? = some '[' := by
    rw [joinPgn_head? hg.1 pairs]
    exact hg.2.1
  have htrim_content : jsTrim (joinPgn g pairs) = joinPgn g pairs :=
    jsTrim_eq_self hcontent_head (by decide) hcontent_last
  have hfilter : (g :: pairs.map Prod.snd).filter
      (fun x => (jsTrim x).length > 0) = g :: pairs.map Prod.snd := by
    rw [List.filter_eq_self]
    intro x hx
    obtain ⟨ht, hne⟩ := htrimmed x hx
    rw [ht]
    simpa using List.length_pos.mpr hne
  have hsplit : splitPgn (joinPgn g pairs) =
      splitPgnGames (g :: pairs.map Prod.snd) := by
    rw [splitPgn, htrim_content, jsSplit,
      splitAux_joinPgn pairs g hg hp, hfilter]
  have hmap : (splitPgn (joinPgn g pairs)).map ParsedGame.pgn =
      g :: pairs.map Prod.snd := by
    rw [hsplit, splitPgnGames_all_trimmed _ htrimmed]
  refine ⟨hmap, ?_, ?_⟩
  · have := congrArg List.length hmap
    rw [List.length_map] at this
    rw [this]
    simp
  · intro q hq
    have hqm : q.pgn ∈ g :: pairs.map Prod.snd := by
      rw [← hmap]
      exact List.mem_map_of_mem ParsedGame.pgn hq
    exact (htrimmed q.pgn hqm).2

/-- Witness for C6: two well-formed games joined by a blank line split
back into exactly those two games. -/
theorem splitPgn_wellformed_witness :
    (splitPgn (joinPgn wGame1 [(wSep, wGame2)])).map ParsedGame.pgn =
      wGame1 :: List.map Prod.snd [(wSep, wGame2)] ∧
    (splitPgn (joinPgn wGame1 [(wSep, wGame2)])).length = 1 + 1 ∧
    ∀ q ∈ splitPgn (joinPgn wGame1 [(wSep, wGame2)]), q.pgn ≠ [] :=
  splitPgn_wellformed wGame1 [(wSep, wGame2)] (by decide)
    (by
      intro p hpmem
      have hpe : p = (wSep, wGame2) := by simpa using hpmem
      subst hpe
      exact ⟨⟨[], by simp, rfl⟩, by decide⟩)

end Chessvine
